import Mathlib

/-!
Shallow embedding of `bbbscrape/main.py` (bbb-scrape): timeline extraction,
frame synthesis and manifest generation for a captured whiteboard recording.

Modelling conventions:
* XML attribute values are strings in Python; here `Val.num x` stands for a
  string on which Python's `float()` succeeds with value `x` (timestamps are
  modelled as rationals), and `Val.str s` for any other string.
* A raised Python exception is modelled by `none` / `Except.error`.
* The worker pools append results in a nondeterministic completion order;
  this is modelled by quantifying over permutations of the job-order list.
-/

namespace BBB

/-- Python `s.split(sep)` for a one-character separator, over the
character list of the string.  `split ';' "" = [""]`, and empty groups
between consecutive separators are kept, as in Python. -/
def splitChar (sep : Char) : List Char → List (List Char)
  | [] => [[]]
  | c :: cs =>
    if c = sep then [] :: splitChar sep cs
    else
      match splitChar sep cs with
      | [] => [[c]]
      | g :: gs => (c :: g) :: gs

/-- Python `sep.join(parts)` for a one-character separator. -/
def joinChar (sep : Char) : List (List Char) → List Char
  | [] => []
  | [g] => g
  | g :: gs => g ++ sep :: joinChar sep gs

/-- `s.split(sep)` on strings (single-character separator). -/
def pySplit (sep : Char) (s : String) : List String :=
  (splitChar sep s.data).map (fun cs => ⟨cs⟩)

/-- `sep.join(parts)` on strings (single-character separator). -/
def pyJoin (sep : Char) (parts : List String) : String :=
  ⟨joinChar sep (parts.map String.data)⟩

/-- An XML attribute value: `num x` models a string accepted by Python's
`float()` (with value `x`), `str s` any other string. -/
inductive Val where
  | num (x : ℚ)
  | str (s : String)
deriving DecidableEq, Repr

/-- The string content of an attribute value (every value is a string in
the source; the rendering of `num` is only used in string contexts). -/
def valStr : Val → String
  | .num x => toString x
  | .str s => s

/-- Python `float()` on an attribute value: succeeds exactly on `num`. -/
def pyFloat : Val → Option ℚ
  | .num x => some x
  | .str _ => none

/-- An element of the scene document tree (`xml.etree.ElementTree` element):
a tag, an ordered attribute dictionary, and the list of child elements. -/
inductive Elem where
  | mk (tag : String) (attrib : List (String × Val)) (children : List Elem)

def Elem.tag : Elem → String
  | .mk t _ _ => t

def Elem.attrib : Elem → List (String × Val)
  | .mk _ a _ => a

def Elem.children : Elem → List Elem
  | .mk _ _ c => c

/-- Dictionary lookup `e.attrib[k]`, `none` when the key is absent. -/
def attrGet (a : List (String × Val)) (k : String) : Option Val :=
  match a with
  | [] => none
  | (k₀, v₀) :: rest => if k₀ = k then some v₀ else attrGet rest k

/-- Python `k in e.attrib`. -/
def attrHas (a : List (String × Val)) (k : String) : Bool :=
  (attrGet a k).isSome

/-- Dictionary assignment `e.attrib[k] = v`: replace in place, else append. -/
def attrSet (a : List (String × Val)) (k : String) (v : Val) : List (String × Val) :=
  match a with
  | [] => [(k, v)]
  | (k', v') :: rest => if k' = k then (k, v) :: rest else (k', v') :: attrSet rest k v

/-- Element with one attribute updated (`e.attrib[k] = v`). -/
def setAttr (e : Elem) (k : String) (v : Val) : Elem :=
  .mk e.tag (attrSet e.attrib k v) e.children

/-- `Image` namedtuple of the source. -/
structure Image where
  id : String
  fname : String
  ts_in : ℚ
  ts_out : ℚ
deriving DecidableEq, Repr

/-- `Frame` namedtuple of the source. -/
structure Frame where
  fname : String
  ts_in : ℚ
  ts_out : ℚ
deriving DecidableEq, Repr

section Timestamps

/-! ### `Scrape.read_timestamps`

The source walks the children of the given node, appending the `float()` of
the `in`, `out` and `timestamp` attributes of each child before recursing
into it; the walk starts at the root, so the root's own attributes are never
examined. `float()` raises on a non-numeric value; documents are therefore
qualified by `tsNumOk` below, under which skipping non-`num` values agrees
with the source. -/

/-- The `in`/`out`/`timestamp` values contributed by one element's own
attribute dictionary, in the order the source appends them. -/
def ownTS (e : Elem) : List ℚ :=
  ((attrGet e.attrib "in").bind pyFloat).toList ++
  ((attrGet e.attrib "out").bind pyFloat).toList ++
  ((attrGet e.attrib "timestamp").bind pyFloat).toList

mutual

/-- Timestamps collected by `read_timestamps` below the given node (the
node's own attributes are not read, matching the source's treatment of the
root). -/
def collectTS : Elem → List ℚ
  | .mk _ _ cs => collectTSL cs

/-- Timestamps collected from a child list: each child's own attributes,
then its subtree, in order. -/
def collectTSL : List Elem → List ℚ
  | [] => []
  | c :: cs => ownTS c ++ collectTS c ++ collectTSL cs

end

mutual

/-- Every `in`/`out`/`timestamp` attribute anywhere in the element (its own
included) is numeric, i.e. Python's `float()` would not raise. -/
def tsNumOk : Elem → Bool
  | .mk _ a cs =>
    (attrGet a "in").all (fun v => (pyFloat v).isSome) &&
    (attrGet a "out").all (fun v => (pyFloat v).isSome) &&
    (attrGet a "timestamp").all (fun v => (pyFloat v).isSome) &&
    tsNumOkL cs

def tsNumOkL : List Elem → Bool
  | [] => true
  | c :: cs => tsNumOk c && tsNumOkL cs

end

/-- Accumulator pass of `dict.fromkeys`: keep the first occurrence of each
value, remembering the keys already seen. -/
def dedupFirstAux (seen : List ℚ) : List ℚ → List ℚ
  | [] => []
  | x :: xs => if x ∈ seen then dedupFirstAux seen xs else x :: dedupFirstAux (x :: seen) xs

/-- `list(dict.fromkeys(l))`: deduplicate keeping first occurrences. -/
def dedupFirst (l : List ℚ) : List ℚ :=
  dedupFirstAux [] l

/-- Python `list.sort()` on rationals (ascending). -/
def sortQ (l : List ℚ) : List ℚ :=
  l.insertionSort (· ≤ ·)

/-- `Scrape.read_timestamps` entry point: collect below the root,
deduplicate keeping first occurrences, sort ascending. -/
def read_timestamps (doc : Elem) : List ℚ :=
  sortQ (dedupFirst (collectTS doc))

mutual

/-- Modelled from the spec: the collection the spec describes — every
numeric `in`/`out`/`timestamp` value on any element at any depth, the root
element itself included. -/
def collectTS_spec : Elem → List ℚ
  | .mk t a cs => ownTS (.mk t a cs) ++ collectTSL_spec cs

/-- Spec-side collection over a child list. -/
def collectTSL_spec : List Elem → List ℚ
  | [] => []
  | c :: cs => collectTS_spec c ++ collectTSL_spec cs

end

/-- Modelled from the spec: sorted deduplication of every numeric
`in`/`out`/`timestamp` value at any depth, root included. -/
def read_timestamps_spec (doc : Elem) : List ℚ :=
  sortQ (dedupFirst (collectTS_spec doc))

end Timestamps

section Resolver

/-! ### `Scrape.fetch_image`

One worker-loop iteration on one dequeued `image` element.  `requests.get`
is modelled as a function returning `none` for a raised transport exception
and `some r` for a returned response (a not-found still yields a response,
whose status the source never checks).  Persisted bytes, the rewritten
element and the appended `Image` record are returned explicitly; a raised
exception is an `Except.error`, in which case `task_done` is never called
and the queue join can never complete. -/

/-- An HTTP response as seen by the source: status code and body bytes. -/
structure Response where
  status_code : Nat
  content : List Nat
deriving DecidableEq, Repr

/-- The content fetcher: `none` models `requests.get` raising, `some r` a
returned response (also for not-found statuses). -/
def Fetcher : Type := String → Option Response

/-- `os.path.basename`. -/
def basename (p : String) : String :=
  ((pySplit '/' p).getLast?).getD ""

/-- The namespace-qualified key under which the source reads and writes the
image reference. -/
def hrefKey : String := "\x7bhttp://www.w3.org/1999/xlink\x7dhref"

/-- A Python exception raised inside a worker. -/
inductive PyErr where
  | keyError (k : String)
  | valueError
  | transport
  | assertError
deriving DecidableEq, Repr

/-- The observable effects of one successful `fetch_image` iteration. -/
structure FetchOutcome where
  file : String × List Nat
  elem : Elem
  rec? : Option Image

/-- One iteration of `Scrape.fetch_image` on element `e`: read the href,
fetch (unchecked status), persist the body under the basename, rewrite the
href, and append an `Image` record whenever an `id` attribute is present —
reading `in`/`out` unconditionally in that case. -/
def fetch_image_step (baseurl : String) (get : Fetcher) (e : Elem) :
    Except PyErr FetchOutcome :=
  match attrGet e.attrib hrefKey with
  | none => .error (.keyError hrefKey)
  | some hv =>
    let href := valStr hv
    let fname := basename href
    match get (baseurl ++ "/" ++ href) with
    | none => .error .transport
    | some resp =>
      let e' := setAttr e hrefKey (.str fname)
      match attrGet e'.attrib "id" with
      | none => .ok ⟨(fname, resp.content), e', none⟩
      | some idv =>
        match attrGet e'.attrib "in" with
        | none => .error (.keyError "in")
        | some iv =>
          match pyFloat iv with
          | none => .error .valueError
          | some ti =>
            match attrGet e'.attrib "out" with
            | none => .error (.keyError "out")
            | some ov =>
              match pyFloat ov with
              | none => .error .valueError
              | some tout =>
                .ok ⟨(fname, resp.content), e',
                     some ⟨valStr idv, fname, ti, tout⟩⟩

/-- The resolver phase's join barrier returns only when every enqueued
element's iteration reached `task_done`, i.e. raised no exception. -/
def resolver_completes (baseurl : String) (get : Fetcher) (es : List Elem) : Bool :=
  es.all (fun e => (fetch_image_step baseurl get e).toBool)

end Resolver

section Frames

/-! ### `Scrape.generate_frames` / `generate_frame` / `make_visible` -/

/-- The interval job list built by `generate_frames`: `t` starts at the
constant `0.0` and each `ts` of `timestamps[1:]` closes one interval. -/
def jobsFrom : ℚ → List ℚ → List (ℚ × ℚ)
  | _, [] => []
  | t, ts :: rest => (t, ts) :: jobsFrom ts rest

/-- The job list submitted to the frame-synthesis queue. -/
def generate_jobs (timestamps : List ℚ) : List (ℚ × ℚ) :=
  jobsFrom 0 timestamps.tail

/-- The active-asset scan condition `timestamp >= i.ts_in and timestamp < i.ts_out`. -/
def activeAt (t : ℚ) (i : Image) : Bool :=
  decide (i.ts_in ≤ t) && decide (t < i.ts_out)

/-- The active-asset scan of `generate_frame`: a forward loop over the
`images` list in its stored order, the last match overwriting `image`. -/
def selectActive (images : List Image) (t : ℚ) : Option String :=
  images.foldl (fun acc i => if activeAt t i then some i.id else acc) none

/-- Python `v == image` where `image : str | None`. -/
def valEqOpt (v : Val) (o : Option String) : Bool :=
  match o with
  | some s => v == .str s
  | none => false

/-- The revealed form of an annotation group: its style string split on
`;`, the first occurrence of the hidden token removed, re-joined. -/
def revealElem (c : Elem) : Elem :=
  match attrGet c.attrib "style" with
  | some sv =>
    setAttr c "style"
      (.str (pyJoin ';' ((pySplit ';' (valStr sv)).erase "visibility:hidden")))
  | none => c

/-- One annotation child of a canvas group, as processed by `make_visible`:
`none` models a raised exception, `some none` a removed child,
`some (some c')` the retained child. -/
def visibleChild (t : ℚ) (c : Elem) : Option (Option Elem) :=
  if c.tag = "g" then
    match attrGet c.attrib "timestamp" with
    | none => some none
    | some v =>
      match pyFloat v with
      | none => none
      | some r =>
        if r ≤ t then
          match attrGet c.attrib "style" with
          | none => none
          | some sv =>
            if (pySplit ';' (valStr sv)).contains "visibility:hidden" then
              some (some (revealElem c))
            else none
        else some none
  else some (some c)

/-- `make_visible`'s pass over the canvas group's children. -/
def visitChildren (t : ℚ) : List Elem → Option (List Elem)
  | [] => some []
  | c :: cs =>
    match visibleChild t c with
    | none => none
    | some none => visitChildren t cs
    | some (some c') => (visitChildren t cs).map (c' :: ·)

/-- `Scrape.make_visible` on a canvas group: reveal each direct `g` child
whose numeric `timestamp` is at most `t`, remove every other `g` child,
leave non-`g` children alone.  `none` models a raised exception
(non-numeric timestamp, missing style, or hidden token absent). -/
def make_visible (tree : Elem) (t : ℚ) : Option Elem :=
  (visitChildren t tree.children).map (fun cs => .mk tree.tag tree.attrib cs)

/-- `generate_frame`'s first pruning pass, over the direct `image`
children: the active one keeps an emptied style, every other one is
removed; a missing `id` raises. -/
def pruneImages (active : Option String) : List Elem → Option (List Elem)
  | [] => some []
  | c :: cs =>
    if c.tag = "image" then
      match attrGet c.attrib "id" with
      | none => none
      | some v =>
        if valEqOpt v active then
          (pruneImages active cs).map (setAttr c "style" (.str "") :: ·)
        else pruneImages active cs
    else (pruneImages active cs).map (c :: ·)

/-- `generate_frame`'s second pruning pass, over the direct `g` children:
assert the canvas class, keep the active asset's group (display inherited,
annotations revealed via `make_visible`), remove every other group. -/
def pruneGroups (active : Option String) (t : ℚ) : List Elem → Option (List Elem)
  | [] => some []
  | c :: cs =>
    if c.tag = "g" then
      match attrGet c.attrib "class" with
      | some (.str "canvas") =>
        match attrGet c.attrib "image" with
        | none => none
        | some v =>
          if valEqOpt v active then
            match make_visible (setAttr c "display" (.str "inherit")) t with
            | none => none
            | some c' => (pruneGroups active t cs).map (c' :: ·)
          else pruneGroups active t cs
      | _ => none
    else (pruneGroups active t cs).map (c :: ·)

/-- One `generate_frame` job on interval `(t, ts_out)`: deep-copy the
document (implicit: values are immutable here), select the active asset,
run both pruning passes, and emit the pruned document together with the
`Frame` record.  `none` models a raised exception in the job. -/
def generate_frame (shapes : Elem) (images : List Image) (j : ℚ × ℚ) :
    Option (Elem × Frame) :=
  match pruneImages (selectActive images j.1) shapes.children with
  | none => none
  | some cs1 =>
    match pruneGroups (selectActive images j.1) j.1 cs1 with
    | none => none
    | some cs2 =>
      some (.mk shapes.tag shapes.attrib cs2,
            ⟨"frames/shapes" ++ toString j.1 ++ ".png", j.1, j.2⟩)

/-- The frames accumulated by the worker pool, in job-submission order
(the pool may append them in any permutation of this list). -/
def jobFrames (shapes : Elem) (images : List Image) (timestamps : List ℚ) : List Frame :=
  (generate_jobs timestamps).filterMap
    (fun j => (generate_frame shapes images j).map (·.2))

end Frames

section Manifest

/-! ### `Scrape.generate_concat` -/

/-- One line of the concat manifest. -/
inductive Directive where
  | file (path : String)
  | duration (d : ℚ)
deriving DecidableEq, Repr

/-- The (file, duration) pairs for the frame list, in the list's order. -/
def concat_lines (frames : List Frame) : List Directive :=
  frames.flatMap (fun f => [.file f.fname, .duration (f.ts_out - f.ts_in)])

/-- `Scrape.generate_concat`: emit the stored frame list as-is (no sort in
the source), then re-emit `frames[-1]`'s path; `none` models the
`IndexError` raised by `frames[-1]` on an empty list. -/
def generate_concat (frames : List Frame) : Option (List Directive) :=
  match frames.getLast? with
  | none => none
  | some last => some (concat_lines frames ++ [.file last.fname])

/-- Python `sorted(frames, key=ts_in)` (stable ascending sort). -/
def sortByTsIn (fs : List Frame) : List Frame :=
  fs.insertionSort (fun a b => a.ts_in ≤ b.ts_in)

/-- Modelled from the spec: the Manifest Builder the spec describes, which
first restores ascending `ts_in` order and then emits the manifest. -/
def generate_concat_spec (frames : List Frame) : Option (List Directive) :=
  generate_concat (sortByTsIn frames)

end Manifest

section ClaimData

/-- An annotation group is due for reveal at interval start `t`. -/
def dueAt (t : ℚ) (c : Elem) : Prop :=
  ∃ v r, attrGet c.attrib "timestamp" = some v ∧ pyFloat v = some r ∧ r ≤ t

/-- `make_visible` raises no exception on this canvas group at time `t`
(every due annotation carries the hidden-visibility token, every present
`timestamp` is numeric). -/
def mvOk (tree : Elem) (t : ℚ) : Bool :=
  tree.children.all (fun c => (visibleChild t c).isSome)

/-- The group's style attribute is present and contains the exact
semicolon-separated token `visibility:hidden`. -/
def styleHasToken (c : Elem) : Bool :=
  match attrGet c.attrib "style" with
  | some sv => decide ("visibility:hidden" ∈ pySplit ';' (valStr sv))
  | none => false

/-- A document with no children at all (frame jobs on it always succeed). -/
def emptyDoc : Elem := .mk "svg" [] []

/-- A fetcher whose every request yields a not-found response with an empty
body (`requests.get` returns normally; the source never checks the status). -/
def get404 : Fetcher := fun _ => some ⟨404, []⟩

/-- A fetcher whose every request raises a transport exception. -/
def getNone : Fetcher := fun _ => none

/-- A fetcher whose every request succeeds with a one-byte body. -/
def getOk : Fetcher := fun _ => some ⟨200, [7]⟩

/-- An `image` element carrying href, id and a numeric interval. -/
def cexImgElem : Elem :=
  .mk "image"
    [(hrefKey, .str "pres/a.png"), ("id", .str "img1"), ("in", .num 0), ("out", .num 10)] []

/-- An `image` element carrying href and id but no `in`/`out` interval. -/
def cexNoInterval : Elem :=
  .mk "image" [(hrefKey, .str "p/b.png"), ("id", .str "img2")] []

/-- A frame list in a completion order that is not ascending by `ts_in`. -/
def cexFrames : List Frame :=
  [⟨"frames/f1.png", 2, 5⟩, ⟨"frames/f0.png", 0, 2⟩]

/-- A document whose root itself carries an `in` timestamp. -/
def cexRootDoc : Elem := .mk "svg" [("in", .num 1)] []

/-- A document whose two timestamp-bearing elements sit below the root. -/
def wDoc : Elem :=
  .mk "svg" [] [.mk "image" [("in", .num 2), ("out", .num 1)] []]

/-- Two assets whose visibility intervals both contain the instant `5`. -/
def imgA : Image := ⟨"A", "a.png", 0, 10⟩

/-- Second overlapping asset, listed after `imgA` in document order. -/
def imgB : Image := ⟨"B", "b.png", 0, 10⟩

/-- An annotation group revealed at `3`, hidden-token present. -/
def wAnn : Elem :=
  .mk "g" [("timestamp", .num 3), ("style", .str "stroke:red;visibility:hidden;fill:none")] []

/-- A canvas group holding `wAnn`. -/
def wCanvas : Elem := .mk "g" [("class", .str "canvas")] [wAnn]

/-- An annotation group that is due but whose style lacks the hidden token. -/
def wBadAnn : Elem := .mk "g" [("timestamp", .num 1), ("style", .str "fill:none")] []

/-- A canvas group holding `wBadAnn`. -/
def wBadCanvas : Elem := .mk "g" [] [wBadAnn]

end ClaimData

/-! ## Helper lemmas -/

section AttrLemmas

theorem attrGet_attrSet_self (a : List (String × Val)) (k : String) (v : Val) :
    attrGet (attrSet a k v) k = some v := by
  induction a with
  | nil => simp [attrGet, attrSet]
  | cons p rest ih =>
    obtain ⟨k₀, v₀⟩ := p
    by_cases h : k₀ = k
    · subst h
      simp [attrGet, attrSet]
    · simpa [attrGet, attrSet, h] using ih

theorem attrGet_attrSet_ne (a : List (String × Val)) (k k' : String) (v : Val)
    (h : k' ≠ k) : attrGet (attrSet a k v) k' = attrGet a k' := by
  induction a with
  | nil => simp [attrGet, attrSet, Ne.symm h]
  | cons p rest ih =>
    obtain ⟨k₀, v₀⟩ := p
    by_cases hk : k₀ = k
    · subst hk
      simp [attrGet, attrSet, Ne.symm h]
    · by_cases hk' : k₀ = k'
      · subst hk'
        simp [attrGet, attrSet, hk]
      · simpa [attrGet, attrSet, hk, hk'] using ih

theorem setAttr_tag (e : Elem) (k : String) (v : Val) :
    (setAttr e k v).tag = e.tag := rfl

theorem attrGet_setAttr_ne (e : Elem) (k k' : String) (v : Val) (h : k' ≠ k) :
    attrGet (setAttr e k v).attrib k' = attrGet e.attrib k' :=
  attrGet_attrSet_ne e.attrib k k' v h

theorem revealElem_tag (c : Elem) : (revealElem c).tag = c.tag := by
  unfold revealElem
  cases attrGet c.attrib "style" <;> rfl

theorem revealElem_timestamp (c : Elem) :
    attrGet (revealElem c).attrib "timestamp" = attrGet c.attrib "timestamp" := by
  unfold revealElem
  cases h : attrGet c.attrib "style" with
  | none => rfl
  | some sv =>
    simpa [setAttr] using attrGet_attrSet_ne c.attrib "style" "timestamp" _ (by decide)

theorem revealElem_style (c : Elem) (sv : Val)
    (h : attrGet c.attrib "style" = some sv) :
    attrGet (revealElem c).attrib "style" =
      some (.str (pyJoin ';' ((pySplit ';' (valStr sv)).erase "visibility:hidden"))) := by
  unfold revealElem
  rw [h]
  simpa [setAttr] using attrGet_attrSet_self c.attrib "style" _

end AttrLemmas

section JobsLemmas

theorem jobsFrom_length (t : ℚ) (l : List ℚ) : (jobsFrom t l).length = l.length := by
  induction l generalizing t with
  | nil => rfl
  | cons x rest ih => simp [jobsFrom, ih]

theorem jobsFrom_eq_zip (t : ℚ) (l : List ℚ) : jobsFrom t l = (t :: l).zip l := by
  induction l generalizing t with
  | nil => rfl
  | cons x rest ih => simp [jobsFrom, List.zip_cons_cons, ih]

theorem jobsFrom_chain (t : ℚ) (l : List ℚ) :
    List.Chain' (fun p q : ℚ × ℚ => p.2 = q.1) (jobsFrom t l) := by
  induction l generalizing t with
  | nil => simp [jobsFrom]
  | cons x rest ih =>
    refine List.Chain'.cons' (ih x) ?_
    intro q hq
    cases rest with
    | nil => simp [jobsFrom] at hq
    | cons y rest' =>
      simp only [jobsFrom, List.head?_cons, Option.mem_def, Option.some.injEq] at hq
      simp [← hq]

theorem mem_jobsFrom_fst (t : ℚ) (l : List ℚ) (p : ℚ × ℚ) (hp : p ∈ jobsFrom t l) :
    p.1 = t ∨ p.1 ∈ l := by
  induction l generalizing t with
  | nil => simp [jobsFrom] at hp
  | cons x rest ih =>
    simp only [jobsFrom, List.mem_cons] at hp
    rcases hp with h | h
    · left; rw [h]
    · rcases ih x h with h' | h'
      · right; simp [h']
      · right; simp [h']

theorem jobsFrom_pairwise_fst (t : ℚ) (l : List ℚ)
    (hl : List.Pairwise (· < ·) l) (ht : ∀ x ∈ l, t < x) :
    List.Pairwise (fun p q : ℚ × ℚ => p.1 < q.1) (jobsFrom t l) := by
  induction l generalizing t with
  | nil => simp [jobsFrom]
  | cons x rest ih =>
    rw [List.pairwise_cons] at hl
    refine List.pairwise_cons.mpr ⟨?_, ih x hl.2 hl.1⟩
    intro q hq
    rcases mem_jobsFrom_fst x rest q hq with h | h
    · rw [h]; exact ht x (by simp)
    · exact lt_trans (ht x (by simp)) (hl.1 q.1 h)

theorem filterMap_eq_map_of_frames (shapes : Elem) (images : List Image) :
    ∀ l : List (ℚ × ℚ), (∀ j ∈ l, (generate_frame shapes images j).isSome) →
      l.filterMap (fun j => (generate_frame shapes images j).map (·.2)) =
        l.map (fun j => ⟨"frames/shapes" ++ toString j.1 ++ ".png", j.1, j.2⟩) := by
  intro l
  induction l with
  | nil => intro _; rfl
  | cons j rest ih =>
    intro h
    have hj := h j (by simp)
    obtain ⟨⟨d, f⟩, hdf⟩ := Option.isSome_iff_exists.mp hj
    have hf : f = ⟨"frames/shapes" ++ toString j.1 ++ ".png", j.1, j.2⟩ := by
      unfold generate_frame at hdf
      split at hdf
      · exact absurd hdf (by simp)
      · split at hdf
        · exact absurd hdf (by simp)
        · simp only [Option.some.injEq, Prod.mk.injEq] at hdf
          exact hdf.2.symm
    simp only [List.filterMap_cons, List.map_cons, hdf, Option.map_some]
    rw [ih (fun x hx => h x (by simp [hx]))]
    rw [hf]
    rfl

theorem length_filterMap_of_isSome {α β : Type} (f : α → Option β) :
    ∀ l : List α, (∀ x ∈ l, (f x).isSome) → (l.filterMap f).length = l.length := by
  intro l
  induction l with
  | nil => intro _; rfl
  | cons x rest ih =>
    intro h
    obtain ⟨b, hb⟩ := Option.isSome_iff_exists.mp (h x (by simp))
    simp only [List.filterMap_cons, hb, List.length_cons]
    rw [ih (fun y hy => h y (by simp [hy]))]

end JobsLemmas

section SelectLemmas

theorem selectActive_foldl (t : ℚ) (l : List Image) (acc : Option String) :
    l.foldl (fun acc i => if activeAt t i then some i.id else acc) acc =
      ((l.reverse.find? (activeAt t)).map Image.id).or acc := by
  induction l generalizing acc with
  | nil => simp
  | cons i rest ih =>
    simp only [List.foldl_cons, List.reverse_cons, List.find?_append]
    rw [ih]
    cases h : rest.reverse.find? (activeAt t) with
    | some j => simp
    | none =>
      cases hp : activeAt t i <;> simp [List.find?, hp]

end SelectLemmas

section DedupLemmas

theorem mem_dedupFirstAux (a : ℚ) :
    ∀ (l seen : List ℚ), a ∈ dedupFirstAux seen l ↔ a ∈ l ∧ a ∉ seen := by
  intro l
  induction l with
  | nil => intro seen; simp [dedupFirstAux]
  | cons x xs ih =>
    intro seen
    by_cases hx : x ∈ seen
    · rw [dedupFirstAux, if_pos hx, ih seen]
      constructor
      · rintro ⟨h1, h2⟩; exact ⟨by simp [h1], h2⟩
      · rintro ⟨h1, h2⟩
        rcases List.mem_cons.mp h1 with h | h
        · exact absurd (h ▸ hx) h2
        · exact ⟨h, h2⟩
    · rw [dedupFirstAux, if_neg hx]
      by_cases hax : a = x
      · subst hax; simp [hx]
      · rw [List.mem_cons, ih (x :: seen)]
        simp [hax, List.mem_cons]

theorem nodup_dedupFirstAux : ∀ (l seen : List ℚ), (dedupFirstAux seen l).Nodup := by
  intro l
  induction l with
  | nil => intro seen; simp [dedupFirstAux]
  | cons x xs ih =>
    intro seen
    by_cases hx : x ∈ seen
    · rw [dedupFirstAux, if_pos hx]; exact ih seen
    · rw [dedupFirstAux, if_neg hx]
      refine List.nodup_cons.mpr ⟨?_, ih (x :: seen)⟩
      intro hmem
      exact ((mem_dedupFirstAux x xs (x :: seen)).mp hmem).2 (by simp)

theorem mem_dedupFirst (a : ℚ) : ∀ l : List ℚ, a ∈ dedupFirst l ↔ a ∈ l := by
  intro l
  rw [dedupFirst, mem_dedupFirstAux]
  simp

theorem nodup_dedupFirst : ∀ l : List ℚ, (dedupFirst l).Nodup := by
  intro l
  exact nodup_dedupFirstAux l []

theorem dedupFirstAux_of_nodup :
    ∀ (l seen : List ℚ), l.Nodup → (∀ x ∈ l, x ∉ seen) → dedupFirstAux seen l = l := by
  intro l
  induction l with
  | nil => intro seen _ _; rfl
  | cons x xs ih =>
    intro seen hnd hdisj
    rw [dedupFirstAux, if_neg (hdisj x (by simp))]
    congr 1
    refine ih (x :: seen) (List.nodup_cons.mp hnd).2 ?_
    intro y hy
    rw [List.mem_cons]
    rintro (h | h)
    · exact (List.nodup_cons.mp hnd).1 (h ▸ hy)
    · exact hdisj y (by simp [hy]) h

theorem dedupFirst_of_nodup : ∀ l : List ℚ, l.Nodup → dedupFirst l = l := by
  intro l h
  exact dedupFirstAux_of_nodup l [] h (by simp)

end DedupLemmas

section VisibleLemmas

theorem visitChildren_eq_filterMap (t : ℚ) :
    ∀ cs : List Elem, (∀ c ∈ cs, (visibleChild t c).isSome) →
      visitChildren t cs = some (cs.filterMap (fun c => (visibleChild t c).join)) := by
  intro cs
  induction cs with
  | nil => intro _; rfl
  | cons c cs ih =>
    intro h
    obtain ⟨o, ho⟩ := Option.isSome_iff_exists.mp (h c (by simp))
    cases o with
    | none =>
      simp only [visitChildren, ho, List.filterMap_cons, Option.join]
      rw [ih (fun x hx => h x (by simp [hx]))]
      rfl
    | some c' =>
      simp only [visitChildren, ho, List.filterMap_cons, Option.join]
      rw [ih (fun x hx => h x (by simp [hx]))]
      rfl

theorem visitChildren_none_of_mem (t : ℚ) (c : Elem) :
    ∀ cs : List Elem, c ∈ cs → visibleChild t c = none → visitChildren t cs = none := by
  intro cs
  induction cs with
  | nil => intro h _; simp at h
  | cons c₀ cs ih =>
    intro hc hnone
    rcases List.mem_cons.mp hc with h | h
    · subst h
      simp [visitChildren, hnone]
    · cases ho : visibleChild t c₀ with
      | none => simp [visitChildren, ho]
      | some o =>
        cases o with
        | none => simpa [visitChildren, ho] using ih h hnone
        | some c' => simp [visitChildren, ho, ih h hnone]

theorem visibleChild_eq_keep (t : ℚ) (c y : Elem)
    (h : visibleChild t c = some (some y)) :
    (¬ c.tag = "g" ∧ y = c) ∨
    (c.tag = "g" ∧ ∃ v r sv, attrGet c.attrib "timestamp" = some v ∧
      pyFloat v = some r ∧ r ≤ t ∧ attrGet c.attrib "style" = some sv ∧
      "visibility:hidden" ∈ pySplit ';' (valStr sv) ∧
      y = revealElem c) := by
  by_cases hg : c.tag = "g"
  · right
    refine ⟨hg, ?_⟩
    cases hv : attrGet c.attrib "timestamp" with
    | none =>
      have hvc : visibleChild t c = some none := by simp [visibleChild, hg, hv]
      rw [hvc] at h
      simp at h
    | some v =>
      cases hr : pyFloat v with
      | none =>
        have hvc : visibleChild t c = none := by simp [visibleChild, hg, hv, hr]
        rw [hvc] at h
        simp at h
      | some r =>
        by_cases hrt : r ≤ t
        · cases hsv : attrGet c.attrib "style" with
          | none =>
            have hvc : visibleChild t c = none := by
              simp [visibleChild, hg, hv, hr, hrt, hsv]
            rw [hvc] at h
            simp at h
          | some sv =>
            by_cases htok : "visibility:hidden" ∈ pySplit ';' (valStr sv)
            · have hvc : visibleChild t c = some (some (revealElem c)) := by
                simp [visibleChild, hg, hv, hr, hrt, hsv, htok]
              rw [hvc] at h
              simp only [Option.some.injEq] at h
              exact ⟨v, r, sv, rfl, hr, hrt, rfl, htok, h.symm⟩
            · have hvc : visibleChild t c = none := by
                simp [visibleChild, hg, hv, hr, hrt, hsv, htok]
              rw [hvc] at h
              simp at h
        · have hvc : visibleChild t c = some none := by
            simp [visibleChild, hg, hv, hr, hrt]
          rw [hvc] at h
          simp at h
  · left
    have hvc : visibleChild t c = some (some c) := by simp [visibleChild, hg]
    rw [hvc] at h
    simp only [Option.some.injEq] at h
    exact ⟨hg, h.symm⟩

theorem visibleChild_due (t : ℚ) (c : Elem) (v : Val) (r : ℚ)
    (hg : c.tag = "g") (hv : attrGet c.attrib "timestamp" = some v)
    (hr : pyFloat v = some r) (hrt : r ≤ t)
    (hok : (visibleChild t c).isSome) :
    visibleChild t c = some (some (revealElem c)) := by
  cases hsv : attrGet c.attrib "style" with
  | none =>
    have hvc : visibleChild t c = none := by simp [visibleChild, hg, hv, hr, hrt, hsv]
    rw [hvc] at hok
    simp at hok
  | some sv =>
    by_cases htok : "visibility:hidden" ∈ pySplit ';' (valStr sv)
    · simp [visibleChild, hg, hv, hr, hrt, hsv, htok]
    · have hvc : visibleChild t c = none := by
        simp [visibleChild, hg, hv, hr, hrt, hsv, htok]
      rw [hvc] at hok
      simp at hok

theorem retained_iff_dueAt (t : ℚ) (cs : List Elem)
    (hall : ∀ c ∈ cs, (visibleChild t c).isSome)
    (c : Elem) (hc : c ∈ cs) (hg : c.tag = "g") :
    revealElem c ∈ cs.filterMap (fun x => (visibleChild t x).join) ↔ dueAt t c := by
  constructor
  · intro hmem
    obtain ⟨x, hx, hxeq⟩ := List.mem_filterMap.mp hmem
    have hxx : visibleChild t x = some (some (revealElem c)) :=
      Option.join_eq_some.mp hxeq
    rcases visibleChild_eq_keep t x _ hxx with ⟨hxg, heq⟩ | ⟨hxg, v, r, sv, hv, hr, hrt, hsv, htok, hy⟩
    · exfalso
      apply hxg
      rw [← heq, revealElem_tag]
      exact hg
    · have hts : attrGet c.attrib "timestamp" = attrGet x.attrib "timestamp" := by
        rw [← revealElem_timestamp c, ← revealElem_timestamp x, hy]
      exact ⟨v, r, by rw [hts]; exact hv, hr, hrt⟩
  · rintro ⟨v, r, hv, hr, hrt⟩
    have hcc := visibleChild_due t c v r hg hv hr hrt (hall c hc)
    exact List.mem_filterMap.mpr ⟨c, hc, by rw [hcc]; rfl⟩

end VisibleLemmas

section PermSortLemmas

instance : IsTotal Frame (fun a b => a.ts_in ≤ b.ts_in) :=
  ⟨fun a b => le_total a.ts_in b.ts_in⟩

instance : IsTrans Frame (fun a b => a.ts_in ≤ b.ts_in) :=
  ⟨fun _ _ _ h h' => le_trans h h'⟩

theorem eq_of_perm_of_key_sorted (key : Frame → ℚ) :
    ∀ (l₂ l₁ : List Frame), l₁.Perm l₂ →
      List.Pairwise (fun a b => key a ≤ key b) l₁ →
      List.Pairwise (fun a b => key a < key b) l₂ → l₁ = l₂ := by
  intro l₂
  induction l₂ with
  | nil => intro l₁ hp _ _; exact hp.eq_nil
  | cons b t₂ ih =>
    intro l₁ hp h₁ h₂
    cases l₁ with
    | nil =>
      have := hp.symm.eq_nil
      simp at this
    | cons a t₁ =>
      by_cases hab : a = b
      · subst hab
        rw [ih t₁ hp.cons_inv (List.pairwise_cons.mp h₁).2 (List.pairwise_cons.mp h₂).2]
      · exfalso
        have hb1 : b ∈ a :: t₁ := hp.mem_iff.mpr (by simp)
        have hbt₁ : b ∈ t₁ := by
          rcases List.mem_cons.mp hb1 with h | h
          · exact absurd h.symm hab
          · exact h
        have hle : key a ≤ key b := (List.pairwise_cons.mp h₁).1 b hbt₁
        have ha2 : a ∈ b :: t₂ := hp.mem_iff.mp (by simp)
        have hat₂ : a ∈ t₂ := by
          rcases List.mem_cons.mp ha2 with h | h
          · exact absurd h hab
          · exact h
        have hlt : key b < key a := (List.pairwise_cons.mp h₂).1 a hat₂
        exact absurd hle (not_le.mpr hlt)

end PermSortLemmas

/-! ## Claims -/

/-- Claim C1. The claim states that the Manifest Builder sorts the completed
Frame set ascending by `ts_in` before emission and re-emits the
largest-`ts_in` frame's path.  The source's `generate_concat` contains no
sort: it emits `self.frames` in its stored (completion) order and re-emits
`frames[-1]`, the last-appended frame.  On a frame list completed out of
order the emitted manifest differs from the sorted one the spec describes:
the pairs appear in completion order and the trailing entry names the
last-appended, not the last-by-time, frame. -/
theorem generate_concat_does_not_sort :
    generate_concat cexFrames =
      some [.file "frames/f1.png", .duration ((5 : ℚ) - 2), .file "frames/f0.png",
            .duration ((2 : ℚ) - 0), .file "frames/f0.png"] ∧
    generate_concat_spec cexFrames =
      some [.file "frames/f0.png", .duration ((2 : ℚ) - 0), .file "frames/f1.png",
            .duration ((5 : ℚ) - 2), .file "frames/f1.png"] ∧
    generate_concat cexFrames ≠ generate_concat_spec cexFrames := by
  have h1 : generate_concat cexFrames =
      some [.file "frames/f1.png", .duration ((5 : ℚ) - 2), .file "frames/f0.png",
            .duration ((2 : ℚ) - 0), .file "frames/f0.png"] := rfl
  have h2 : generate_concat_spec cexFrames =
      some [.file "frames/f0.png", .duration ((2 : ℚ) - 0), .file "frames/f1.png",
            .duration ((5 : ℚ) - 2), .file "frames/f1.png"] := rfl
  refine ⟨h1, h2, ?_⟩
  rw [h1, h2]
  simp

/-- Claim C6. A document yielding fewer than two distinct timestamps is
nowhere rejected: `generate_frames` simply submits zero interval jobs and
completes with zero frames, and the pipeline proceeds into
`generate_concat`, which then raises `IndexError` on `frames[-1]`
(modelled by `none`) after opening the manifest file — there is no check
before frame synthesis as the spec requires. -/
theorem degenerate_input_not_rejected :
    generate_jobs ([] : List ℚ) = [] ∧
    generate_jobs [(5 : ℚ)] = [] ∧
    jobFrames emptyDoc [] [(5 : ℚ)] = [] ∧
    generate_concat (jobFrames emptyDoc [] [(5 : ℚ)]) = none := by
  refine ⟨rfl, rfl, rfl, rfl⟩

/-- Claim C8, counterexample. The claim asserts run-to-run determinism of
active-asset selection via a fixed document-order scan.  The scan in
`generate_frame` runs over `self.images`, whose order is the completion
order of the concurrent fetch workers, not document order: both orders of
the two overlapping assets are reachable completion orders (permutations
of the same asset set), and they select different active assets. -/
theorem active_asset_order_dependent_cex :
    ([imgB, imgA] : List Image).Perm [imgA, imgB] ∧
    activeAt 5 imgA = true ∧ activeAt 5 imgB = true ∧
    selectActive [imgA, imgB] 5 = some "B" ∧
    selectActive [imgB, imgA] 5 = some "A" ∧
    selectActive [imgA, imgB] 5 ≠ selectActive [imgB, imgA] 5 := by
  refine ⟨by decide, by decide, by decide, by decide, by decide, by decide⟩

/-- Claim C8, amended. For a fixed stored order of the resolved asset list,
selection is the deterministic last-match of a forward scan: the result is
the first match of the reversed list.  Determinism across runs holds only
relative to that stored order; the order itself is the resolver pool's
completion order. -/
theorem selectActive_last_wins (images : List Image) (t : ℚ) :
    selectActive images t = (images.reverse.find? (activeAt t)).map Image.id := by
  unfold selectActive
  rw [selectActive_foldl]
  cases (images.reverse.find? (activeAt t)).map Image.id <;> rfl

/-- Claim C2, counterexample. The claim states that a fetch returning no
bytes leaves the href unrewritten and records no Asset while the run
continues.  The source never inspects the response: on a not-found
response with an empty body the (empty) error body is persisted under the
local name, the element's href IS rewritten to it, and the `Image` record
IS appended. -/
theorem fetch_notfound_rewrites_cex :
    (fetch_image_step "base" get404 cexImgElem).toOption.map
        (fun o => (attrGet o.elem.attrib hrefKey, o.rec?, o.file)) =
      some (some (.str "a.png"), some ⟨"img1", "a.png", 0, 10⟩, ("a.png", [])) ∧
    attrGet cexImgElem.attrib hrefKey = some (.str "pres/a.png") := by
  refine ⟨by decide, by decide⟩

/-- Claim C2, amended. Only a raised transport exception leaves the href
unrewritten with no Asset recorded, and then the dead worker never calls
`task_done`, so the resolver phase's queue join can never complete — the
run hangs instead of continuing.  A fetch that returns a response is never
checked for failure: its body is persisted, the href is rewritten to the
local basename, and (shown here for an element with no `id`) processing
completes normally. -/
theorem fetch_failure_amended (baseurl : String) (get : Fetcher) (e : Elem) (hv : Val)
    (h : attrGet e.attrib hrefKey = some hv) :
    (get (baseurl ++ "/" ++ valStr hv) = none →
      fetch_image_step baseurl get e = .error .transport ∧
      ∀ es : List Elem, e ∈ es → resolver_completes baseurl get es = false) ∧
    (∀ resp : Response, get (baseurl ++ "/" ++ valStr hv) = some resp →
      attrGet e.attrib "id" = none →
      fetch_image_step baseurl get e =
        .ok ⟨(basename (valStr hv), resp.content),
             setAttr e hrefKey (.str (basename (valStr hv))), none⟩) := by
  constructor
  · intro hfail
    have hstep : fetch_image_step baseurl get e = .error .transport := by
      simp [fetch_image_step, h, hfail]
    refine ⟨hstep, ?_⟩
    intro es hes
    cases hall : es.all (fun e2 => (fetch_image_step baseurl get e2).toBool) with
    | false => exact hall
    | true =>
      exfalso
      have hmem := List.all_eq_true.mp hall e hes
      rw [hstep] at hmem
      simp [Except.toBool] at hmem
  · intro resp hresp hid
    have hid' : attrGet (setAttr e hrefKey (.str (basename (valStr hv)))).attrib "id" = none := by
      rw [attrGet_setAttr_ne e hrefKey "id" _ (by decide)]
      exact hid
    simp [fetch_image_step, h, hresp, hid']

/-- Claim C2, witness. -/
theorem fetch_failure_amended_witness :
    attrGet cexImgElem.attrib hrefKey = some (.str "pres/a.png") ∧
    ((getNone ("base" ++ "/" ++ valStr (.str "pres/a.png")) = none →
       fetch_image_step "base" getNone cexImgElem = .error .transport ∧
       ∀ es : List Elem, cexImgElem ∈ es →
         resolver_completes "base" getNone es = false) ∧
     (∀ resp : Response, getNone ("base" ++ "/" ++ valStr (.str "pres/a.png")) = some resp →
       attrGet cexImgElem.attrib "id" = none →
       fetch_image_step "base" getNone cexImgElem =
         .ok ⟨(basename (valStr (.str "pres/a.png")), resp.content),
              setAttr cexImgElem hrefKey
                (.str (basename (valStr (.str "pres/a.png")))), none⟩)) :=
  ⟨by decide, fetch_failure_amended "base" getNone cexImgElem (.str "pres/a.png") (by decide)⟩

/-- Claim C9, counterexample. The claim asserts that an `image` element
with href and id but without `in`/`out` is fetched and rewritten and
simply contributes no Asset record.  In the source the record guard is
`if "id" in e.attrib`, and `in`/`out` are then read unconditionally: such
an element's job raises `KeyError("in")` after the fetch and rewrite (so
`task_done` is never reached), instead of completing without a record. -/
theorem fetch_missing_interval_raises_cex :
    fetch_image_step "base" getOk cexNoInterval = .error (.keyError "in") ∧
    ∀ o : FetchOutcome, fetch_image_step "base" getOk cexNoInterval ≠ .ok o := by
  have h : fetch_image_step "base" getOk cexNoInterval = .error (.keyError "in") := by
    simp [fetch_image_step, cexNoInterval, getOk, attrGet, hrefKey]
  refine ⟨h, ?_⟩
  intro o ho
  rw [h] at ho
  exact absurd ho (by simp)

/-- Claim C9, amended. For every `image` element bearing an href, once the
fetch returns a response the element is persisted under the basename of
the reference and its href rewritten; the Asset record is appended
whenever an `id` attribute is present, reading `in`/`out` unconditionally:
with numeric `in`/`out` present the record carries those bounds, and with
`in` absent the job raises `KeyError("in")` rather than merely skipping
the record. -/
theorem fetch_asset_record_amended (baseurl : String) (get : Fetcher) (e : Elem)
    (hv : Val) (resp : Response)
    (h : attrGet e.attrib hrefKey = some hv)
    (hresp : get (baseurl ++ "/" ++ valStr hv) = some resp) :
    (∀ idv, attrGet e.attrib "id" = some idv → attrGet e.attrib "in" = none →
      fetch_image_step baseurl get e = .error (.keyError "in")) ∧
    (∀ idv ti tout, attrGet e.attrib "id" = some idv →
      attrGet e.attrib "in" = some (.num ti) →
      attrGet e.attrib "out" = some (.num tout) →
      fetch_image_step baseurl get e =
        .ok ⟨(basename (valStr hv), resp.content),
             setAttr e hrefKey (.str (basename (valStr hv))),
             some ⟨valStr idv, basename (valStr hv), ti, tout⟩⟩) := by
  constructor
  · intro idv hid hin
    have hid' : attrGet (setAttr e hrefKey (.str (basename (valStr hv)))).attrib "id" = some idv := by
      rw [attrGet_setAttr_ne e hrefKey "id" _ (by decide)]; exact hid
    have hin' : attrGet (setAttr e hrefKey (.str (basename (valStr hv)))).attrib "in" = none := by
      rw [attrGet_setAttr_ne e hrefKey "in" _ (by decide)]; exact hin
    simp [fetch_image_step, h, hresp, hid', hin']
  · intro idv ti tout hid hin hout
    have hid' : attrGet (setAttr e hrefKey (.str (basename (valStr hv)))).attrib "id" = some idv := by
      rw [attrGet_setAttr_ne e hrefKey "id" _ (by decide)]; exact hid
    have hin' : attrGet (setAttr e hrefKey (.str (basename (valStr hv)))).attrib "in" = some (.num ti) := by
      rw [attrGet_setAttr_ne e hrefKey "in" _ (by decide)]; exact hin
    have hout' : attrGet (setAttr e hrefKey (.str (basename (valStr hv)))).attrib "out" = some (.num tout) := by
      rw [attrGet_setAttr_ne e hrefKey "out" _ (by decide)]; exact hout
    simp [fetch_image_step, h, hresp, hid', hin', hout', pyFloat]

/-- Claim C9, witness. -/
theorem fetch_asset_record_amended_witness :
    attrGet cexImgElem.attrib hrefKey = some (.str "pres/a.png") ∧
    getOk ("base" ++ "/" ++ valStr (.str "pres/a.png")) = some ⟨200, [7]⟩ ∧
    ((∀ idv, attrGet cexImgElem.attrib "id" = some idv →
       attrGet cexImgElem.attrib "in" = none →
       fetch_image_step "base" getOk cexImgElem = .error (.keyError "in")) ∧
     (∀ idv ti tout, attrGet cexImgElem.attrib "id" = some idv →
       attrGet cexImgElem.attrib "in" = some (.num ti) →
       attrGet cexImgElem.attrib "out" = some (.num tout) →
       fetch_image_step "base" getOk cexImgElem =
         .ok ⟨(basename (valStr (.str "pres/a.png")), ([7] : List Nat)),
              setAttr cexImgElem hrefKey (.str (basename (valStr (.str "pres/a.png")))),
              some ⟨valStr idv, basename (valStr (.str "pres/a.png")), ti, tout⟩⟩)) :=
  ⟨by decide, rfl,
   fetch_asset_record_amended "base" getOk cexImgElem (.str "pres/a.png") ⟨200, [7]⟩
     (by decide) rfl⟩

/-- Claim C4, counterexample. The claim quantifies over every element at
any depth, but `read_timestamps` starts the walk at the root and only ever
reads the attributes of children: a root carrying its own `in` value shows
the extractor's output differing from the sorted deduplication of all
values at all depths. -/
theorem read_timestamps_root_skipped_cex :
    tsNumOk cexRootDoc = true ∧
    read_timestamps cexRootDoc = [] ∧
    read_timestamps_spec cexRootDoc = [1] ∧
    read_timestamps cexRootDoc ≠ read_timestamps_spec cexRootDoc := by
  refine ⟨by decide, by decide, by decide, by decide⟩

/-- Claim C4, amended. For a document whose `in`/`out`/`timestamp`
attributes are all numeric, the extracted breakpoint sequence is strictly
increasing (hence duplicate-free), contains exactly the values collected
from elements strictly below the root, and is a fixed point of the
dedup-then-sort pipeline (idempotent re-extraction). -/
theorem read_timestamps_amended (doc : Elem) (h : tsNumOk doc = true) :
    List.Pairwise (· < ·) (read_timestamps doc) ∧
    (∀ x : ℚ, x ∈ read_timestamps doc ↔ x ∈ collectTS doc) ∧
    sortQ (dedupFirst (read_timestamps doc)) = read_timestamps doc := by
  have hsorted : List.Sorted (· ≤ ·) (read_timestamps doc) :=
    List.sorted_insertionSort _ _
  have hnodup : (read_timestamps doc).Nodup :=
    (List.perm_insertionSort _ _).nodup_iff.mpr (nodup_dedupFirst _)
  refine ⟨List.Sorted.lt_of_le hsorted hnodup, ?_, ?_⟩
  · intro x
    rw [read_timestamps, sortQ, (List.perm_insertionSort _ _).mem_iff, mem_dedupFirst]
  · rw [dedupFirst_of_nodup _ hnodup]
    exact List.Sorted.insertionSort_eq hsorted

/-- Claim C3, counterexample. The claim asserts that each frame's bounds
equal two consecutive breakpoints, frame `i` carrying `ts_in = b[i]`; in
particular every frame bound would be a breakpoint.  The source starts the
interval chain at the constant `0.0`, not at `breakpoints[0]`: for the
breakpoint sequence `[1, 3]` the single frame produced has `ts_in = 0`,
which is not a breakpoint at all. -/
theorem frame_first_interval_cex :
    ¬ (∀ b : List ℚ, List.Pairwise (· < ·) b → 2 ≤ b.length →
        ∀ f ∈ jobFrames emptyDoc [] b, f.ts_in ∈ b ∧ f.ts_out ∈ b) := by
  intro hclaim
  have h := hclaim [1, 3] (by decide) (by decide)
      ⟨"frames/shapes0.png", 0, 3⟩ (by decide)
  exact absurd h.1 (by decide)

/-- Claim C3, amended. The job list is `(0 :: b.tail).zip b.tail`: the
first interval's lower bound is the constant `0.0` (equal to `b[0]` only
when `b[0] = 0`), and frame `i ≥ 1` has `ts_in = b[i]`; every frame's
`ts_out` is `b[i+1]`.  Each successful job yields the frame with exactly
its interval bounds, consecutive frames chain with no gap or overlap
(`frame[i].ts_out = frame[i+1].ts_in`), and — for nonnegative strictly
increasing breakpoints — sorting any completion-order permutation of the
frames by `ts_in` restores exactly the job-order list, so the chaining
holds after the sort the claim describes. -/
theorem frame_bounds_amended (b : List ℚ) (shapes : Elem) (images : List Image)
    (hchain : List.Pairwise (· < ·) b) (hpos : ∀ x ∈ b, 0 ≤ x)
    (hsucc : ∀ j ∈ generate_jobs b, (generate_frame shapes images j).isSome) :
    generate_jobs b = (0 :: b.tail).zip b.tail ∧
    jobFrames shapes images b =
      (generate_jobs b).map
        (fun j => ⟨"frames/shapes" ++ toString j.1 ++ ".png", j.1, j.2⟩) ∧
    List.Chain' (fun f g => f.ts_out = g.ts_in) (jobFrames shapes images b) ∧
    ∀ fs : List Frame, fs.Perm (jobFrames shapes images b) →
      sortByTsIn fs = jobFrames shapes images b := by
  have hzip : generate_jobs b = (0 :: b.tail).zip b.tail := jobsFrom_eq_zip 0 b.tail
  have hmap : jobFrames shapes images b =
      (generate_jobs b).map
        (fun j => ⟨"frames/shapes" ++ toString j.1 ++ ".png", j.1, j.2⟩) :=
    filterMap_eq_map_of_frames shapes images (generate_jobs b) hsucc
  have htailpair : List.Pairwise (· < ·) b.tail := by
    cases b with
    | nil => simp
    | cons b0 bt => exact (List.pairwise_cons.mp hchain).2
  have htailpos : ∀ x ∈ b.tail, (0 : ℚ) < x := by
    cases b with
    | nil => simp
    | cons b0 bt =>
      intro x hx
      exact lt_of_le_of_lt (hpos b0 (by simp)) ((List.pairwise_cons.mp hchain).1 x hx)
  refine ⟨hzip, hmap, ?_, ?_⟩
  · rw [hmap]
    rw [List.chain'_map]
    exact jobsFrom_chain 0 b.tail
  · intro fs hperm
    have hstrict : List.Pairwise (fun f g : Frame => f.ts_in < g.ts_in)
        (jobFrames shapes images b) := by
      rw [hmap]
      exact List.pairwise_map.mpr (jobsFrom_pairwise_fst 0 b.tail htailpair htailpos)
    have hsorted : List.Pairwise (fun f g : Frame => f.ts_in ≤ g.ts_in) (sortByTsIn fs) :=
      List.sorted_insertionSort _ fs
    have hperm2 : (sortByTsIn fs).Perm (jobFrames shapes images b) :=
      (List.perm_insertionSort _ fs).trans hperm
    exact eq_of_perm_of_key_sorted Frame.ts_in _ _ hperm2 hsorted hstrict

/-- Claim C3, witness. -/
theorem frame_bounds_amended_witness :
    List.Pairwise (· < ·) ([0, 2, 5] : List ℚ) ∧
    (∀ x ∈ ([0, 2, 5] : List ℚ), 0 ≤ x) ∧
    (∀ j ∈ generate_jobs [0, 2, 5], (generate_frame emptyDoc [] j).isSome) ∧
    (generate_jobs [0, 2, 5] = ((0 : ℚ) :: ([0, 2, 5] : List ℚ).tail).zip ([0, 2, 5] : List ℚ).tail ∧
     jobFrames emptyDoc [] [0, 2, 5] =
       (generate_jobs [0, 2, 5]).map
         (fun j => ⟨"frames/shapes" ++ toString j.1 ++ ".png", j.1, j.2⟩) ∧
     List.Chain' (fun f g => f.ts_out = g.ts_in) (jobFrames emptyDoc [] [0, 2, 5]) ∧
     ∀ fs : List Frame, fs.Perm (jobFrames emptyDoc [] [0, 2, 5]) →
       sortByTsIn fs = jobFrames emptyDoc [] [0, 2, 5]) :=
  ⟨by decide, by decide, by decide,
   frame_bounds_amended [0, 2, 5] emptyDoc [] (by decide) (by decide) (by decide)⟩

/-- Claim C5. For a non-degenerate breakpoint sequence whose every interval
job succeeds, the worker pool produces exactly `len(breakpoints) - 1`
frames: whatever completion order the pool realizes (any permutation of the
job-order result list, all present after the blocking join), the collected
frame list has length `b.length - 1`. -/
theorem frames_count (b : List ℚ) (shapes : Elem) (images : List Image)
    (hb : 2 ≤ b.length)
    (hsucc : ∀ j ∈ generate_jobs b, (generate_frame shapes images j).isSome) :
    ∀ fs : List Frame, fs.Perm (jobFrames shapes images b) →
      fs.length = b.length - 1 := by
  intro fs hperm
  rw [hperm.length_eq]
  unfold jobFrames
  rw [length_filterMap_of_isSome _ (generate_jobs b)
      (fun j hj => by simpa using hsucc j hj)]
  unfold generate_jobs
  rw [jobsFrom_length, List.length_tail]

/-- Claim C5, witness. -/
theorem frames_count_witness :
    2 ≤ ([0, 2, 5] : List ℚ).length ∧
    (∀ j ∈ generate_jobs [0, 2, 5], (generate_frame emptyDoc [] j).isSome) ∧
    (jobFrames emptyDoc [] [0, 2, 5]).length = ([0, 2, 5] : List ℚ).length - 1 :=
  ⟨by decide, by decide,
   frames_count [0, 2, 5] emptyDoc [] (by decide) (by decide)
     (jobFrames emptyDoc [] [0, 2, 5]) (List.Perm.refl _)⟩

/-- Claim C4, witness. -/
theorem read_timestamps_amended_witness :
    tsNumOk wDoc = true ∧
    (List.Pairwise (· < ·) (read_timestamps wDoc) ∧
     (∀ x : ℚ, x ∈ read_timestamps wDoc ↔ x ∈ collectTS wDoc) ∧
     sortQ (dedupFirst (read_timestamps wDoc)) = read_timestamps wDoc) :=
  ⟨by decide, read_timestamps_amended wDoc (by decide)⟩

/-- Claim C7. On a canvas group on which `make_visible` raises no
exception at either instant, an annotation child (`g` element) is retained
— in its revealed form, with the first `visibility:hidden` token stripped
from its semicolon-split style and every other token preserved — exactly
when it carries a numeric `timestamp` `r` with `r ≤ t`; any other `g`
child (no timestamp, or a later one) is removed outright.  Reveal is
therefore monotonic in the interval start: retained at `t` implies
retained at every `t' ≥ t`. -/
theorem make_visible_monotone (tree : Elem) (t t' : ℚ) (c : Elem)
    (hok : mvOk tree t = true) (hok' : mvOk tree t' = true) (htt' : t ≤ t')
    (hc : c ∈ tree.children) (hg : c.tag = "g") :
    ∃ u u', make_visible tree t = some u ∧ make_visible tree t' = some u' ∧
      (revealElem c ∈ u.children ↔ dueAt t c) ∧
      (revealElem c ∈ u.children → revealElem c ∈ u'.children) ∧
      (∀ sv, attrGet c.attrib "style" = some sv →
        attrGet (revealElem c).attrib "style" =
          some (.str (pyJoin ';' ((pySplit ';' (valStr sv)).erase "visibility:hidden")))) := by
  have hall : ∀ x ∈ tree.children, (visibleChild t x).isSome := by
    intro x hx
    exact List.all_eq_true.mp hok x hx
  have hall' : ∀ x ∈ tree.children, (visibleChild t' x).isSome := by
    intro x hx
    exact List.all_eq_true.mp hok' x hx
  have hu := visitChildren_eq_filterMap t tree.children hall
  have hu' := visitChildren_eq_filterMap t' tree.children hall'
  refine ⟨.mk tree.tag tree.attrib
            (tree.children.filterMap (fun x => (visibleChild t x).join)),
          .mk tree.tag tree.attrib
            (tree.children.filterMap (fun x => (visibleChild t' x).join)),
          ?_, ?_, ?_, ?_, ?_⟩
  · unfold make_visible
    rw [hu]
    rfl
  · unfold make_visible
    rw [hu']
    rfl
  · exact retained_iff_dueAt t tree.children hall c hc hg
  · intro hmem
    have hdue : dueAt t c := (retained_iff_dueAt t tree.children hall c hc hg).mp hmem
    obtain ⟨v, r, hv, hr, hrt⟩ := hdue
    exact (retained_iff_dueAt t' tree.children hall' c hc hg).mpr
      ⟨v, r, hv, hr, le_trans hrt htt'⟩
  · intro sv hsv
    exact revealElem_style c sv hsv

/-- Claim C7, witness. -/
theorem make_visible_monotone_witness :
    mvOk wCanvas 3 = true ∧ mvOk wCanvas 4 = true ∧ (3 : ℚ) ≤ 4 ∧
    wAnn ∈ wCanvas.children ∧ wAnn.tag = "g" ∧
    (∃ u u', make_visible wCanvas 3 = some u ∧ make_visible wCanvas 4 = some u' ∧
      (revealElem wAnn ∈ u.children ↔ dueAt 3 wAnn) ∧
      (revealElem wAnn ∈ u.children → revealElem wAnn ∈ u'.children) ∧
      (∀ sv, attrGet wAnn.attrib "style" = some sv →
        attrGet (revealElem wAnn).attrib "style" =
          some (.str (pyJoin ';' ((pySplit ';' (valStr sv)).erase "visibility:hidden"))))) :=
  ⟨by decide, by decide, by decide, List.Mem.head _, rfl,
   make_visible_monotone wCanvas 3 4 wAnn (by decide) (by decide) (by decide)
     (List.Mem.head _) rfl⟩

/-- Claim C10. If a canvas group holds a `g` annotation whose numeric
`timestamp` is at most the frame's interval start `t` but whose style
attribute is absent or lacks the exact semicolon-separated token
`visibility:hidden`, then `make_visible` raises (`KeyError` on the missing
style, or `ValueError` from `list.remove`) — the whole frame job fails —
rather than leaving the annotation's style unchanged. -/
theorem make_visible_missing_token_raises (tree : Elem) (t : ℚ) (c : Elem)
    (v : Val) (r : ℚ)
    (hc : c ∈ tree.children) (hg : c.tag = "g")
    (hv : attrGet c.attrib "timestamp" = some v) (hr : pyFloat v = some r)
    (hrt : r ≤ t) (hs : styleHasToken c = false) :
    make_visible tree t = none := by
  have hvc : visibleChild t c = none := by
    cases hsv : attrGet c.attrib "style" with
    | none => simp [visibleChild, hg, hv, hr, hrt, hsv]
    | some sv =>
      have htok : ¬ "visibility:hidden" ∈ pySplit ';' (valStr sv) := by
        intro hmem
        have : styleHasToken c = true := by
          simp only [styleHasToken, hsv]
          exact decide_eq_true hmem
        rw [hs] at this
        cases this
      simp [visibleChild, hg, hv, hr, hrt, hsv, htok]
  unfold make_visible
  rw [visitChildren_none_of_mem t c tree.children hc hvc]
  rfl

/-- Claim C10, witness. -/
theorem make_visible_missing_token_raises_witness :
    wBadAnn ∈ wBadCanvas.children ∧ wBadAnn.tag = "g" ∧
    attrGet wBadAnn.attrib "timestamp" = some (.num 1) ∧
    pyFloat (.num 1) = some 1 ∧ (1 : ℚ) ≤ 2 ∧
    styleHasToken wBadAnn = false ∧
    make_visible wBadCanvas 2 = none :=
  ⟨List.Mem.head _, rfl, by decide, rfl, by decide, by decide,
   make_visible_missing_token_raises wBadCanvas 2 wBadAnn (.num 1) 1
     (List.Mem.head _) rfl (by decide) rfl (by decide) (by decide)⟩

end BBB
